import Mathlib

/-!
Verification of the comic-generation core of `nano_b_hack`: the script parser
(`src/services/script_parser.py`), the character manager
(`src/services/character_manager.py`), the panel reference manager
(`src/services/panel_reference.py`) and the data model
(`src/models/{panel,script,character}.py`), shallowly embedded in Lean.

Python strings are embedded as `List Char`; Python `int` as `Int`;
`None`-able values as `Option`; Python lists as `List`.  Regular-expression
searches appearing in the source are embedded by functions that reproduce the
search/backtracking behaviour of the concrete patterns used by the code
(documented at each definition).
-/

set_option maxHeartbeats 1000000
set_option maxRecDepth 100000

/-- Python strings, embedded as lists of characters. -/
abbrev Str := List Char

/-- The characters for which Python's `str.isspace` / `\s` (ASCII range) is
true: space, tab, newline, carriage return, vertical tab, form feed.  All
whitespace appearing in the repository's data is ASCII. -/
def pyIsSpace (c : Char) : Bool :=
  c = ' ' || c = '\t' || c = '\n' || c = '\r' || c = '\x0b' || c = '\x0c'

/-- Python `str.lower()` (ASCII). -/
def lowerStr (s : Str) : Str := s.map Char.toLower

/-- ASCII letter test, i.e. the regex class `[A-Za-z]`. -/
def isAsciiAlpha (c : Char) : Bool :=
  ('A' ≤ c && c ≤ 'Z') || ('a' ≤ c && c ≤ 'z')

/-- Python `str.strip()`: drop whitespace from both ends. -/
def strip (s : Str) : Str :=
  ((s.dropWhile pyIsSpace).reverse.dropWhile pyIsSpace).reverse

/-- Python `str.startswith(pat)` (case-sensitive). -/
def startsWith (pat s : Str) : Bool := pat.isPrefixOf s

/-- Case-insensitive prefix test (used for `re.IGNORECASE` literals and for
Python's `s.upper().startswith(pat)` / `s.lower().startswith(pat)` idioms,
which agree with it on ASCII). -/
def startsWithCI : Str → Str → Bool
  | [], _ => true
  | _ :: _, [] => false
  | p :: ps, c :: cs => (p.toLower = c.toLower : Bool) && startsWithCI ps cs

/-- Scan `s` left to right for the first case-insensitive occurrence of `pat`;
return the suffix of `s` that follows the occurrence.  This is the spine of
every `re.search` in the parser: each concrete pattern starts with a literal
marker, so the leftmost match of the whole pattern sits at the leftmost
occurrence of the marker at which the pattern's tail can match (analysed at
each use site). -/
def findCISuffix (pat : Str) : Str → Option Str
  | [] => if pat = [] then some [] else none
  | c :: cs =>
    if startsWithCI pat (c :: cs) then some ((c :: cs).drop pat.length)
    else findCISuffix pat cs

/-- Python `str.title()` restricted to its behaviour on ASCII text: the first
letter after a non-letter is upper-cased, subsequent letters are lower-cased.
The character manager only applies it to regex matches of `[A-Za-z\s]+`. -/
def titleCaseAux : Bool → Str → Str
  | _, [] => []
  | prevAlpha, c :: cs =>
    (if isAsciiAlpha c then (if prevAlpha then c.toLower else c.toUpper) else c)
      :: titleCaseAux (isAsciiAlpha c) cs

/-- Python `str.title()` (ASCII). -/
def titleCase (s : Str) : Str := titleCaseAux false s

/-- Numeric value of a digit string (the `int(...)` applied to a `\d+` match). -/
def digitsVal (s : Str) : Nat :=
  s.foldl (fun n c => n * 10 + (c.toNat - '0'.toNat)) 0

/-- Membership test for one character, the Python `':' in line` idiom. -/
def containsChar (c : Char) (s : Str) : Bool := s.any (· = c)

/-! ## Data model: `src/models/character.py` -/

/-- Dataclass `Character` from `src/models/character.py`. -/
structure Character where
  name : Str
  visual_description : Str
  reference_panels : List Int := []
  first_appearance_panel : Option Int := none
deriving DecidableEq, Repr

/-- Method `Character.add_appearance` (`src/models/character.py`, lines 14-20):
set `first_appearance_panel` if unset, then append the panel number to
`reference_panels` unless already present. -/
def Character.add_appearance (c : Character) (panel_number : Int) : Character :=
  let c1 := if c.first_appearance_panel = none then
      { c with first_appearance_panel := some panel_number } else c
  if panel_number ∈ c1.reference_panels then c1
  else { c1 with reference_panels := c1.reference_panels ++ [panel_number] }

/-- Method `Character.get_reference_panels` (`src/models/character.py`, lines 22-42).
Returns `[]` when no appearances are recorded; otherwise starts from the first
appearance (when set), adds the remaining recorded panels most-recent-first up
to `max_references` entries in total (the Python `for`/`break` loop over the
descending-sorted list is the `take`), and returns the result sorted
ascending. -/
def Character.get_reference_panels (c : Character) (max_references : Nat := 3) : List Int :=
  if c.reference_panels = [] then []
  else
    let references : List Int :=
      match c.first_appearance_panel with
      | some f => [f]
      | none => []
    -- [p for p in self.reference_panels if p != self.first_appearance_panel],
    -- then .sort(reverse=True)
    let recent_panels :=
      List.insertionSort (· ≥ ·)
        (c.reference_panels.filter (fun p => ¬ c.first_appearance_panel = some p))
    let references := references ++ recent_panels.take (max_references - references.length)
    List.insertionSort (· ≤ ·) references

/-! ## Data model: `src/models/panel.py` and `src/models/script.py`
(fields not consumed by any verified operation — `image_path`,
`image_prompt` — are not represented). -/

/-- Dataclass `Panel` from `src/models/panel.py`. -/
structure Panel where
  panel_number : Int
  scene_description : Str
  dialogue : List Str
  narration : Option Str := none
  style : Str
  characters_in_panel : List Str := []
  reference_panels : List Int := []
deriving DecidableEq, Repr

/-- Dataclass `Script` from `src/models/script.py`. -/
structure Script where
  title : Str
  event_description : Str
  panels : List Panel
  characters : List Character := []
  style : Str
deriving DecidableEq, Repr

/-- Method `Script.__post_init__` (`src/models/script.py`, lines 17-20): overwrite
every panel's `panel_number` with its 1-based position in the list. -/
def renumberPanels (ps : List Panel) : List Panel :=
  ps.enum.map (fun e => { e.2 with panel_number := (e.1 : Int) + 1 })

/-- Constructing a `Script(title, event_description, panels, style)` runs
`__post_init__`, i.e. renumbers the panels. -/
def mkScript (title event_description : Str) (panels : List Panel) (style : Str) : Script :=
  { title := title, event_description := event_description,
    panels := renumberPanels panels, characters := [], style := style }

/-! ## Script parser: `src/services/script_parser.py` -/

/-- Match of the anchor pattern `PANEL\s+(\d+):` (with `re.IGNORECASE`) at the
head of `s`: the literal `PANEL`, one or more whitespace characters, one or
more digits, a colon.  Returns the panel number and the rest of the string.
(`\s+` and `\d+` are greedy; backtracking them cannot help because a
whitespace character can satisfy neither `\d` nor `:`, and a digit is not
`:`, so maximal munch is exact.) -/
def matchPanelAnchor (s : Str) : Option (Int × Str) :=
  match findAnchorTail s with
  | none => none
  | some r1 =>
    let ws := r1.takeWhile pyIsSpace
    if ws = [] then none
    else
      let r2 := r1.drop ws.length
      let ds := r2.takeWhile Char.isDigit
      if ds = [] then none
      else
        match r2.drop ds.length with
        | ':' :: rest => some ((digitsVal ds : Int), rest)
        | _ => none
where
  /-- the rest of `s` after a case-insensitive literal `PANEL` at its head -/
  findAnchorTail (s : Str) : Option Str :=
    if startsWithCI "PANEL".toList s then some (s.drop 5) else none

/-- The lazy group `(.*?)` of the panel pattern, running (under `re.DOTALL`)
from the current position up to the first position where the lookahead
`(?=PANEL\s+\d+:|$)` holds: either the next panel anchor starts, or the end of
the string (`$` also matches just before a final newline).  Returns the group
and the remaining suffix at which scanning resumes. -/
def panelContentSplit : Str → Str × Str
  | [] => ([], [])
  | c :: rest =>
    if (matchPanelAnchor (c :: rest)).isSome then ([], c :: rest)
    else if c = '\n' ∧ rest = [] then ([], [c])
    else
      let p := panelContentSplit rest
      (c :: p.1, p.2)

/-- Embedding of `re.findall(r'PANEL\s+(\d+):(.*?)(?=PANEL\s+\d+:|$)', text, IGNORECASE|DOTALL)`
(`script_parser.py`, line 50), fuel-indexed: scan left to right; at each
anchor, capture the declared number and the content up to the next anchor,
then resume after the content.  Fuel bounds the recursion; each step consumes
at least one character, so `s.length` fuel (supplied by `findPanelMatches`)
never runs out. -/
def findPanelMatchesFuel : Nat → Str → List (Int × Str)
  | 0, _ => []
  | _ + 1, [] => []
  | fuel + 1, c :: rest =>
    match matchPanelAnchor (c :: rest) with
    | some nr =>
      let p := panelContentSplit nr.2
      (nr.1, p.1) :: findPanelMatchesFuel fuel p.2
    | none => findPanelMatchesFuel fuel rest

/-- All `PANEL n:` matches of the script text, in order of appearance. -/
def findPanelMatches (s : Str) : List (Int × Str) := findPanelMatchesFuel s.length s

/-- The captured group of a section pattern
`MARKER\s*(.+?)(?=BLOCKER1|...|\Z)` compiled with `IGNORECASE | DOTALL`
(`_extract_scene`, `_extract_dialogue`, `_extract_narration`).  `re.search`
semantics for these concrete patterns: the match sits at the first
case-insensitive occurrence of the literal marker; with `DOTALL` the lazy
group `(.+?)` can always reach `\Z`, so the match succeeds exactly when at
least one character follows the marker.  `\s*` is greedy: when anything
follows the whitespace run, the group starts there and extends (lazily) to
the first position — after at least one consumed character — where a blocker
starts or the string ends; when nothing follows the whitespace run, `\s*`
backtracks by one and the group is the final whitespace character (the
callers strip the group, so it degrades to the empty string). -/
def regexSectionGroup (marker : Str) (blockers : List Str) (content : Str) : Option Str :=
  match findCISuffix marker content with
  | none => none
  | some rest0 =>
    if rest0 = [] then none
    else
      let rest1 := rest0.dropWhile pyIsSpace
      if rest1 = [] then some (rest0.drop (rest0.length - 1))
      else some (lazyTake blockers rest1)
where
  lazyTakeAux (blockers : List Str) : Str → Str
    | [] => []
    | c :: rest =>
      if blockers.any (fun b => startsWithCI b (c :: rest)) then []
      else c :: lazyTakeAux blockers rest
  /-- Lazy group `(.+?)`: one unconditional character, then stop at the first blocker. -/
  lazyTake (blockers : List Str) : Str → Str
    | [] => []
    | c :: rest => c :: lazyTakeAux blockers rest

/-- Function `_extract_scene` (`script_parser.py`, lines 82-89): group of
`SCENE:\s*(.+?)(?=DIALOGUE:|NARRATION:|PANEL|\Z)`, stripped; `""` when there
is no match. -/
def extract_scene (content : Str) : Str :=
  match regexSectionGroup "SCENE:".toList
      ["DIALOGUE:".toList, "NARRATION:".toList, "PANEL".toList] content with
  | none => []
  | some g => strip g

/-- The per-line keep test of `_extract_dialogue`'s loop (lines 107-115):
lines starting with `[` are skipped; a line with a colon not starting with
the word `dialogue` is kept; otherwise a line is kept unless it starts with a
section keyword. -/
def dialogueLoop : List Str → List Str
  | [] => []
  | l :: ls =>
    if ¬ l = [] ∧ ¬ startsWith "[".toList l then
      if containsChar ':' l ∧ ¬ startsWithCI "dialogue".toList l then
        l :: dialogueLoop ls
      else if ¬ (startsWithCI "SCENE".toList l ∨ startsWithCI "DIALOGUE".toList l
          ∨ startsWithCI "NARRATION".toList l) then
        l :: dialogueLoop ls
      else dialogueLoop ls
    else dialogueLoop ls

/-- Function `_extract_dialogue` (`script_parser.py`, lines 91-117): group of
`DIALOGUE:\s*(.+?)(?=NARRATION:|PANEL|\Z)`, stripped; empty when missing,
empty or a literal `none`/`[none]`; otherwise split into stripped non-empty
lines and filtered by the loop above. -/
def extract_dialogue (content : Str) : List Str :=
  match regexSectionGroup "DIALOGUE:".toList ["NARRATION:".toList, "PANEL".toList] content with
  | none => []
  | some g =>
    let dialogue_text := strip g
    if dialogue_text = [] ∨ lowerStr dialogue_text = "[none]".toList
        ∨ lowerStr dialogue_text = "none".toList then []
    else
      let lines := ((dialogue_text.splitOn '\n').map strip).filter (fun l => ¬ l = [])
      dialogueLoop lines

/-- Function `_extract_narration` (`script_parser.py`, lines 119-129): group of
`NARRATION:\s*(.+?)(?=PANEL|\Z)`, stripped; `None` when missing, empty or a
literal `none`/`[none]`. -/
def extract_narration (content : Str) : Option Str :=
  match regexSectionGroup "NARRATION:".toList ["PANEL".toList] content with
  | none => none
  | some g =>
    let narration := strip g
    if ¬ narration = [] ∧ ¬ lowerStr narration = "[none]".toList
        ∧ ¬ lowerStr narration = "none".toList then some narration
    else none

/-- Function `_parse_panel_content` (`script_parser.py`, lines 60-80): build a `Panel`
from a chunk, or `None` when the scene description is empty.  (The Python
`try`/`except` guards operations that cannot fail in this embedding.) -/
def parse_panel_content (panel_number : Int) (content : Str) (style : Str) : Option Panel :=
  let scene_description := extract_scene content
  let dialogue := extract_dialogue content
  let narration := extract_narration content
  if scene_description = [] then none
  else some { panel_number := panel_number, scene_description := scene_description,
              dialogue := dialogue, narration := narration, style := style }

/-- Function `_extract_panels` (`script_parser.py`, lines 45-58): parse every matched
chunk, keeping the successes in order. -/
def extract_panels (script_text : Str) (style : Str) : List Panel :=
  (findPanelMatches script_text).filterMap (fun m => parse_panel_content m.1 m.2 style)

/-- Function `_extract_title` (`script_parser.py`, lines 32-43): the stripped group of
`re.search(r'TITLE:\s*(.+)', text, IGNORECASE)` when it matches (no `DOTALL`,
so `.` excludes newlines and the pattern needs a non-newline character after
the marker; `\s*` may consume newlines); otherwise the stripped first line of
the text when non-empty and not starting with the literal `PANEL`
(case-sensitive `startswith`); otherwise `"Untitled Comic"`.  When the
marker's tail cannot match, the characters after the marker are all newlines,
which contain no further marker occurrence, so the fallback is exact. -/
def extract_title (script_text : Str) : Str :=
  match findCISuffix "TITLE:".toList script_text with
  | some rest0 =>
    if rest0.any (fun c => ¬ c = '\n') then
      let rest1 := rest0.dropWhile pyIsSpace
      if rest1 = [] then
        -- `\s*` backtracks; the group is whitespace-only, so it strips to ""
        []
      else strip (rest1.takeWhile (fun c => ¬ c = '\n'))
    else fallbackTitle script_text
  | none => fallbackTitle script_text
where
  /-- lines 38-43: `script_text.split('\n')[0].strip()` etc. -/
  fallbackTitle (script_text : Str) : Str :=
    let first_line := strip ((script_text.splitOn '\n').headD [])
    if ¬ first_line = [] ∧ ¬ startsWith "PANEL".toList first_line then first_line
    else "Untitled Comic".toList

/-- Function `parse_script` (`script_parser.py`, lines 10-30): extract title and
panels, then construct the `Script` (whose `__post_init__` renumbers). -/
def parse_script (script_text event_description style : Str) : Script :=
  mkScript (extract_title script_text) event_description
    (extract_panels script_text style) style

/-! ## Character manager: `src/services/character_manager.py`

The Python service mutates shared objects: the `Character` instances held in
`characters_cache` are the very objects appended to `script.characters`, so a
later `add_appearance` through the cache is visible through the script list
as well.  The embedding makes the store explicit: the cache (an association
list keyed by lower-cased name, in insertion order, like a Python dict) holds
the authoritative `Character` values, and every write to a cached character
is propagated to the script's character list by updating the entries with the
same `name` — which, for states the service itself produces (keys are
`name.lower()` and are distinct), are exactly the aliases of that object. -/

/-- The in-memory `characters_cache` dict: insertion-ordered, keyed by
lower-cased character name. -/
abbrev Cache := List (Str × Character)

/-- Dict lookup: the value at the first (in a real dict: only) entry with the
given key. -/
def cacheGet : Cache → Str → Option Character
  | [], _ => none
  | e :: cs, k => if e.1 = k then some e.2 else cacheGet cs k

/-- Dict write to an existing key (a Python in-place mutation of the cached
object): every entry with the key takes the new value. -/
def cacheSet : Cache → Str → Character → Cache
  | [], _, _ => []
  | e :: cs, k, v => (if e.1 = k then (k, v) else e) :: cacheSet cs k v

/-- Per-line regex of `_extract_character_names_from_dialogue`:
`re.match(r'^([A-Za-z\s]+):\s*(.+)', line.strip())` (lines 40-46).  Group 1
is greedy over letters and whitespace, so it must be the maximal such run and
be followed by `:`; without `DOTALL`, `\s*(.+)` after the colon matches
exactly when a non-newline character remains.  The matched name is stripped
and kept when longer than one character. -/
def extractNameFromLine (line : Str) : Option Str :=
  let l := strip line
  let r := l.takeWhile (fun c => isAsciiAlpha c || pyIsSpace c)
  if r = [] then none
  else
    match l.drop r.length with
    | ':' :: rest0 =>
      if rest0.any (fun c => ¬ c = '\n') then
        let character_name := strip r
        if ¬ character_name = [] ∧ character_name.length > 1 then some character_name
        else none
      else none
    | _ => none

/-- Function `_extract_character_names_from_dialogue` (lines 36-48). -/
def extract_character_names_from_dialogue (dialogue : List Str) : List Str :=
  dialogue.filterMap extractNameFromLine

/-- Python's substring test `pat in s`. -/
def containsSub (pat : Str) : Str → Bool
  | [] => pat.isPrefixOf []
  | c :: cs => pat.isPrefixOf (c :: cs) || containsSub pat cs

/-- Function `_generate_character_description` (lines 65-90): a fixed-vocabulary scan
of the scene text. -/
def generate_character_description (name context : Str) : Str :=
  let base := "Character named ".toList ++ name
  if context = [] then base
  else
    let context_lower := lowerStr context
    let terms : List Str :=
      ["young".toList, "old".toList, "elderly".toList, "child".toList, "boy".toList,
       "girl".toList, "man".toList, "woman".toList, "tall".toList, "short".toList,
       "thin".toList, "heavy".toList, "beard".toList, "mustache".toList,
       "long hair".toList, "bald".toList]
    let descriptive_words := terms.filter (fun t => containsSub t context_lower)
    if descriptive_words = [] then base
    else
      base ++ ". ".toList ++ "described as ".toList
        ++ joinSep ", ".toList descriptive_words
where
  joinSep (sep : Str) : List Str → Str
    | [] => []
    | [w] => w
    | w :: ws => w ++ sep ++ joinSep sep ws

/-- Function `_get_or_create_character` (lines 51-63): look the lower-cased name up in
the cache, or create a fresh `Character` (with generated description) and
insert it. -/
def getOrCreateCharacter (cache : Cache) (name context : Str) : Cache × Character :=
  let name_key := lowerStr name
  match cacheGet cache name_key with
  | some c => (cache, c)
  | none =>
    let c : Character := { name := name, visual_description := generate_character_description name context }
    (cache ++ [(name_key, c)], c)

/-- Method `Panel.add_character` (`src/models/panel.py`, lines 44-47). -/
def panelAddCharacter (chars : List Str) (name : Str) : List Str :=
  if name ∈ chars then chars else chars ++ [name]

/-- Method `Script.add_character` (`src/models/script.py`, lines 34-37) combined
with the aliasing propagation: when a character of the same (exact) name is
already in the list it is the same mutated object, so its entries take the
updated value; otherwise the character is appended. -/
def scriptAddCharacter (chars : List Character) (c : Character) : List Character :=
  if chars.any (fun x => x.name = c.name) then
    chars.map (fun x => if x.name = c.name then c else x)
  else chars ++ [c]

/-- State threaded through character extraction: the current panel's
`characters_in_panel`, the manager's cache, and `script.characters`. -/
abbrev ExtractSt := List Str × Cache × List Character

/-- The body of the `for char_name in character_names` loop
(`character_manager.py`, lines 28-34). -/
def nameStep (panel_number : Int) (scene : Str) (st : ExtractSt) (char_name : Str) : ExtractSt :=
  let pc := panelAddCharacter st.1 char_name
  let gc := getOrCreateCharacter st.2.1 char_name scene
  let character := gc.2.add_appearance panel_number
  let cache := cacheSet gc.1 (lowerStr char_name) character
  let sc := scriptAddCharacter st.2.2 character
  (pc, cache, sc)

/-- The deduplicated, title-cased speaker names of one panel
(`character_manager.py`, lines 22-25).  `list(set(...))` iterates in an
unspecified order; the embedding fixes first-occurrence order, on which none
of the verified properties depend. -/
def panelNames (p : Panel) : List Str :=
  ((extract_character_names_from_dialogue p.dialogue).map titleCase).dedup

/-- Processing of one panel of the `for panel in script.panels` loop
(lines 20-34): run `nameStep` over the panel's names, record the updated
`characters_in_panel` on the panel. -/
def panelStep (st : Cache × List Character) (p : Panel) : Panel × Cache × List Character :=
  let r := (panelNames p).foldl (nameStep p.panel_number p.scene_description)
    (p.characters_in_panel, st.1, st.2)
  ({ p with characters_in_panel := r.1 }, r.2.1, r.2.2)

/-- The panel loop, rebuilding the panel list in order while threading the
cache and the script's character list. -/
def extractLoop : List Panel → Cache × List Character → List Panel × Cache × List Character
  | [], st => ([], st.1, st.2)
  | p :: ps, st =>
    let r := panelStep st p
    let rr := extractLoop ps (r.2.1, r.2.2)
    (r.1 :: rr.1, rr.2.1, rr.2.2)

/-- Function `extract_characters_from_script` (`character_manager.py`, lines 18-34),
as a function of the script and the manager's cache. -/
def extract_characters_from_script (script : Script) (cache : Cache) : Script × Cache :=
  let r := extractLoop script.panels (cache, script.characters)
  ({ script with panels := r.1, characters := r.2.2 }, r.2.1)

/-- Method `Script.get_character` (`src/models/script.py`, lines 39-44), as an
`Option` (the Python `ValueError` is only ever caught by
`get_character_reference_panels`). -/
def Script.get_character (s : Script) (name : Str) : Option Character :=
  s.characters.find? (fun c => lowerStr c.name = lowerStr name)

/-- Method `Script.get_character_reference_panels` (`src/models/script.py`,
lines 51-57): the character's reference panels (default limit), or `[]` when
the character is unknown. -/
def Script.get_character_reference_panels (s : Script) (name : Str) : List Int :=
  match s.get_character name with
  | some c => c.get_reference_panels
  | none => []

/-- The candidate list built by `determine_reference_panels` before sorting
and truncation (`character_manager.py`, lines 107-121): the immediate one or
two predecessors, then — per character in the panel — the first of that
character's reference panels that is smaller than the current panel number
and not already collected (the loop `break`s after appending one). -/
def collectReferencePanels (panel : Panel) (script : Script) : List Int :=
  let r1 : List Int :=
    (if panel.panel_number > 1 then [panel.panel_number - 1] else []) ++
    (if panel.panel_number > 2 then [panel.panel_number - 2] else [])
  panel.characters_in_panel.foldl (fun acc character_name =>
    let char_references := script.get_character_reference_panels character_name
    match char_references.find? (fun r => r < panel.panel_number ∧ ¬ r ∈ acc) with
    | some r => acc ++ [r]
    | none => acc) r1

/-- Function `determine_reference_panels` (`character_manager.py`, lines 105-125):
sort the candidates ascending and keep the first four. -/
def determine_reference_panels (panel : Panel) (script : Script) : List Int :=
  (List.insertionSort (· ≤ ·) (collectReferencePanels panel script)).take 4

/-- The JSON object written by `save_characters` (`character_manager.py`,
lines 127-139), as an insertion-ordered association list: one record per
cached character, stored under the key `character.name` (a repeated name
overwrites in place, like a dict assignment). -/
def save_characters (cache : Cache) : List (Str × Character) :=
  cache.foldl (fun acc e => jsonSet acc e.2.name e.2) []
where
  jsonSet (d : List (Str × Character)) (k : Str) (v : Character) : List (Str × Character) :=
    if d.any (fun e => e.1 = k) then d.map (fun e => if e.1 = k then (k, v) else e)
    else d ++ [(k, v)]

/-! ## Filename sanitization: `_sanitize_filename`, defined identically in
`src/services/panel_reference.py` (lines 47-54) and
`src/services/image_generator.py` (lines 138-147). -/

/-- The unsafe set `<>:"/\|?*`. -/
def invalidChars : Str := "<>:\"/\\|?*".toList

theorem length_dropWhile_le_self (p : Char → Bool) :
    ∀ l : Str, (l.dropWhile p).length ≤ l.length := by
  intro l
  induction l with
  | nil => simp
  | cons c cs ih =>
    by_cases h : p c
    · simp [List.dropWhile_cons, h]; omega
    · simp [List.dropWhile_cons, h]

/-- Python `str.split()` with no argument: maximal runs of non-whitespace,
leading/trailing/repeated whitespace discarded. -/
def pySplitWS : Str → List Str
  | [] => []
  | c :: rest =>
    if pyIsSpace c then pySplitWS rest
    else
      ((c :: rest).takeWhile (fun x => !pyIsSpace x))
        :: pySplitWS ((c :: rest).dropWhile (fun x => !pyIsSpace x))
termination_by s => s.length
decreasing_by
all_goals
  rename_i h
  try simp
  all_goals
    have h' : pyIsSpace c = false := by revert h; cases pyIsSpace c <;> simp
    have h2 := length_dropWhile_le_self (fun x => !pyIsSpace x) cs
    simp only [List.dropWhile_cons, h', Bool.not_false, if_true] at h2 ⊢
    omega

/-- Python `'_'.join(words)`. -/
def joinUnderscore : List Str → Str
  | [] => []
  | [w] => w
  | w :: ws => w ++ '_' :: joinUnderscore ws

/-- Function `_sanitize_filename`: replace each unsafe character by `_`, collapse
whitespace runs to single underscores (`'_'.join(filename.split())`), and
truncate to 50 characters. -/
def sanitize_filename (filename : Str) : Str :=
  let f1 := filename.map (fun c => if c ∈ invalidChars then '_' else c)
  let f2 := joinUnderscore (pySplitWS f1)
  f2.take 50

theorem sanity_titleCase : titleCase "bOB the  cat".toList = "Bob The  Cat".toList := by decide

theorem sanity_parse :
    (parse_script "TITLE: The Spark\nPANEL 1:\nSCENE: A cave at night.\nDIALOGUE: Oga: Look, fire!\nNARRATION: none\nPANEL 2:\nSCENE: Villagers gather.\nDIALOGUE: none".toList
      "ed".toList "s".toList) =
    { title := "The Spark".toList, event_description := "ed".toList,
      panels := [
        { panel_number := 1, scene_description := "A cave at night.".toList,
          dialogue := ["Oga: Look, fire!".toList], narration := none, style := "s".toList },
        { panel_number := 2, scene_description := "Villagers gather.".toList,
          dialogue := [], narration := none, style := "s".toList }],
      style := "s".toList } := by decide

/-! ## Helper lemmas for `Character.add_appearance` (claim C8) -/

theorem add_appearance_first_of_some (c : Character) (p f : Int)
    (h : c.first_appearance_panel = some f) :
    (c.add_appearance p).first_appearance_panel = some f := by
  simp only [Character.add_appearance, h]
  split
  · simp_all
  · split <;> simp [h]

theorem add_appearance_refs_extend (c : Character) (p : Int) :
    ∃ t, (c.add_appearance p).reference_panels = c.reference_panels ++ t := by
  simp only [Character.add_appearance]
  split <;> split <;> simp

theorem add_appearance_nodup (c : Character) (p : Int)
    (h : c.reference_panels.Nodup) : (c.add_appearance p).reference_panels.Nodup := by
  simp only [Character.add_appearance]
  split <;> split <;> simp_all [List.nodup_append]

theorem add_appearance_first_mem (c : Character)
    (h : ∀ f, c.first_appearance_panel = some f → f ∈ c.reference_panels) (p : Int) :
    ∀ f, (c.add_appearance p).first_appearance_panel = some f →
      f ∈ (c.add_appearance p).reference_panels := by
  intro f hf
  simp only [Character.add_appearance] at hf ⊢
  split at hf
  · split at hf <;> simp_all
  · split at hf
    · have hh := h f hf
      simp_all
    · have hf' : c.first_appearance_panel = some f := hf
      have hh := h f hf'
      simp_all

theorem foldl_add_appearance_inv (ps : List Int) (c : Character)
    (h1 : ∀ f, c.first_appearance_panel = some f → f ∈ c.reference_panels)
    (h2 : c.reference_panels.Nodup) :
    (∀ f, (ps.foldl Character.add_appearance c).first_appearance_panel = some f →
      f ∈ (ps.foldl Character.add_appearance c).reference_panels) ∧
    (ps.foldl Character.add_appearance c).reference_panels.Nodup := by
  induction ps generalizing c with
  | nil => exact ⟨h1, h2⟩
  | cons p ps ih =>
    exact ih (c.add_appearance p) (add_appearance_first_mem c h1 p)
      (add_appearance_nodup c p h2)

/-- C8: starting from a freshly created `Character` (as `_get_or_create_character`
builds it: no recorded panels, no first appearance) and applying any sequence
of `add_appearance` calls, after every operation the first appearance, when
set, is a member of `reference_panels`; the reference panel list has no
duplicates; a set first appearance is never changed by a further
`add_appearance`; and a further `add_appearance` only appends to
`reference_panels`. -/
theorem character_invariants (name desc : Str) (ps : List Int) :
    (∀ f, (ps.foldl Character.add_appearance
        { name := name, visual_description := desc }).first_appearance_panel = some f →
      f ∈ (ps.foldl Character.add_appearance
        { name := name, visual_description := desc }).reference_panels) ∧
    (ps.foldl Character.add_appearance
        { name := name, visual_description := desc }).reference_panels.Nodup ∧
    (∀ p f, (ps.foldl Character.add_appearance
        { name := name, visual_description := desc }).first_appearance_panel = some f →
      ((ps.foldl Character.add_appearance
        { name := name, visual_description := desc }).add_appearance p).first_appearance_panel
        = some f) ∧
    (∀ p, ∃ t, ((ps.foldl Character.add_appearance
        { name := name, visual_description := desc }).add_appearance p).reference_panels =
      (ps.foldl Character.add_appearance
        { name := name, visual_description := desc }).reference_panels ++ t) := by
  have base := foldl_add_appearance_inv ps
    { name := name, visual_description := desc } (by intro f hf; simp at hf) (by simp)
  refine ⟨base.1, base.2, ?_, ?_⟩
  · intro p f hf
    exact add_appearance_first_of_some _ p f hf
  · intro p
    exact add_appearance_refs_extend _ p

/-- Witness for C8 at a concrete appearance sequence: after recording panels
2, 2, 5 the first appearance is panel 2 and it is among the reference
panels. -/
theorem character_invariants_witness :
    ([(2 : Int), 2, 5].foldl Character.add_appearance
      { name := "Oga".toList, visual_description := [] }).first_appearance_panel = some 2 ∧
    (2 : Int) ∈ ([(2 : Int), 2, 5].foldl Character.add_appearance
      { name := "Oga".toList, visual_description := [] }).reference_panels :=
  ⟨by decide, (character_invariants "Oga".toList [] [2, 2, 5]).1 2 (by decide)⟩

/-! ## Helper lemmas for `_sanitize_filename` (claim C9) -/

theorem mem_joinUnderscore {c : Char} : ∀ ws : List Str, c ∈ joinUnderscore ws →
    c = '_' ∨ ∃ w ∈ ws, c ∈ w
  | [], h => by simp [joinUnderscore] at h
  | [w], h => by
    simp only [joinUnderscore] at h
    exact Or.inr ⟨w, by simp, h⟩
  | w :: w' :: ws, h => by
    simp only [joinUnderscore] at h
    rcases List.mem_append.1 h with h1 | h2
    · exact Or.inr ⟨w, by simp, h1⟩
    · rcases List.mem_cons.1 h2 with rfl | h3
      · exact Or.inl rfl
      · rcases mem_joinUnderscore (w' :: ws) h3 with h4 | ⟨u, hu, hc⟩
        · exact Or.inl h4
        · exact Or.inr ⟨u, List.mem_cons_of_mem w hu, hc⟩

theorem joinUnderscore_singleton (w : Str) : joinUnderscore [w] = w := rfl

theorem mem_takeWhile_mem (p : Char → Bool) : ∀ l : Str, ∀ c ∈ l.takeWhile p, c ∈ l := by
  intro l
  induction l with
  | nil => simp
  | cons a as ih =>
    intro c hc
    rw [List.takeWhile_cons] at hc
    by_cases h : p a
    · rw [if_pos h] at hc
      rcases List.mem_cons.1 hc with rfl | hc2
      · simp
      · exact List.mem_cons_of_mem a (ih c hc2)
    · rw [if_neg h] at hc
      simp at hc

theorem pySplitWS_sound (s : Str) : ∀ w ∈ pySplitWS s,
    ¬ w = [] ∧ ∀ c ∈ w, ¬ pyIsSpace c = true ∧ c ∈ s := by
  induction s using pySplitWS.induct with
  | case1 => simp [pySplitWS]
  | case2 c rest h ih =>
    rw [pySplitWS]
    simp only [h, if_true]
    intro w hw
    rcases ih w hw with ⟨hne, hcs⟩
    exact ⟨hne, fun x hx => ⟨(hcs x hx).1, List.mem_cons_of_mem c (hcs x hx).2⟩⟩
  | case3 c rest h ih =>
    have hc : pyIsSpace c = false := by revert h; cases pyIsSpace c <;> simp
    rw [pySplitWS]
    simp only [hc, Bool.false_eq_true, if_false]
    intro w hw
    rcases List.mem_cons.1 hw with rfl | hw2
    · refine ⟨by simp [hc], fun x hx => ⟨?_, ?_⟩⟩
      · have := List.mem_takeWhile_imp hx
        simpa using this
      · exact mem_takeWhile_mem _ _ x hx
    · rcases ih w hw2 with ⟨hne, hcs⟩
      exact ⟨hne, fun x hx =>
        ⟨(hcs x hx).1, (List.dropWhile_suffix _).sublist.subset (hcs x hx).2⟩⟩

theorem pySplitWS_of_no_space {s : Str} (hne : ¬ s = [])
    (hns : ∀ c ∈ s, ¬ pyIsSpace c = true) : pySplitWS s = [s] := by
  cases s with
  | nil => simp at hne
  | cons c rest =>
    have hc : pyIsSpace c = false := by
      have := hns c (by simp)
      revert this
      cases pyIsSpace c <;> simp
    rw [pySplitWS]
    simp only [hc, Bool.false_eq_true, if_false]
    have ht : (c :: rest).takeWhile (fun x => !pyIsSpace x) = c :: rest :=
      List.takeWhile_eq_self_iff.2 (by
        intro x hx
        have := hns x hx
        revert this
        cases pyIsSpace x <;> simp)
    have hd : (c :: rest).dropWhile (fun x => !pyIsSpace x) = [] :=
      List.dropWhile_eq_nil_iff.2 (by
        intro x hx
        have := hns x hx
        revert this
        cases pyIsSpace x <;> simp)
    rw [ht, hd, pySplitWS]

theorem map_replace_invalid_id {t : Str} (h : ∀ c ∈ t, ¬ c ∈ invalidChars) :
    t.map (fun c => if c ∈ invalidChars then '_' else c) = t := by
  induction t with
  | nil => rfl
  | cons c cs ih =>
    simp only [List.map_cons]
    rw [if_neg (h c (by simp)), ih (fun x hx => h x (by simp [hx]))]

theorem sanitize_filename_chars (s : Str) :
    ∀ c ∈ sanitize_filename s, ¬ c ∈ invalidChars ∧ ¬ pyIsSpace c = true := by
  intro c hc
  simp only [sanitize_filename] at hc
  have hc2 := List.take_subset _ _ hc
  rcases mem_joinUnderscore _ hc2 with rfl | ⟨w, hw, hcw⟩
  · constructor
    · decide
    · decide
  · rcases pySplitWS_sound _ w hw with ⟨_, hprops⟩
    rcases hprops c hcw with ⟨hns, hmem⟩
    refine ⟨?_, hns⟩
    rcases List.mem_map.1 hmem with ⟨b, _, hb⟩
    by_cases hbi : b ∈ invalidChars
    · rw [if_pos hbi] at hb
      rw [← hb]
      decide
    · rw [if_neg hbi] at hb
      rw [← hb]
      exact hbi

/-- C9: `_sanitize_filename` (identical in `panel_reference.py` and
`image_generator.py`) is idempotent, its output has at most 50 characters,
and the output contains no character of the unsafe set. -/
theorem sanitize_filename_spec (s : Str) :
    sanitize_filename (sanitize_filename s) = sanitize_filename s ∧
    (sanitize_filename s).length ≤ 50 ∧
    (∀ c ∈ sanitize_filename s, ¬ c ∈ invalidChars) := by
  have hlen : (sanitize_filename s).length ≤ 50 := by
    simp only [sanitize_filename]
    exact List.length_take_le 50 _
  refine ⟨?_, hlen, fun c hc => (sanitize_filename_chars s c hc).1⟩
  by_cases hne : sanitize_filename s = []
  · rw [hne]
    show sanitize_filename [] = []
    simp only [sanitize_filename, List.map_nil]
    rw [pySplitWS]
    rfl
  · have hmap := map_replace_invalid_id (fun c hc => (sanitize_filename_chars s c hc).1)
    have hsplit := pySplitWS_of_no_space hne (fun c hc => (sanitize_filename_chars s c hc).2)
    conv_lhs => rw [sanitize_filename]
    rw [hmap, hsplit, joinUnderscore_singleton, List.take_of_length_le hlen]

/-- Witness for C9 at a concrete name containing unsafe characters and
whitespace runs. -/
theorem sanitize_filename_spec_witness :
    sanitize_filename (sanitize_filename "My: Comic?  On/Fire".toList)
      = sanitize_filename "My: Comic?  On/Fire".toList ∧
    ¬ '?' ∈ sanitize_filename "My: Comic?  On/Fire".toList :=
  ⟨(sanitize_filename_spec "My: Comic?  On/Fire".toList).1,
   fun hmem => (sanitize_filename_spec "My: Comic?  On/Fire".toList).2.2 '?' hmem (by decide)⟩

/-! ## Claim C4: shape of `determine_reference_panels` -/

/-- C4: for every panel and script, `determine_reference_panels` returns an
ascending-sorted list of at most 4 entries. -/
theorem determine_reference_panels_sorted_le4 (panel : Panel) (script : Script) :
    (determine_reference_panels panel script).length ≤ 4 ∧
    List.Sorted (· ≤ ·) (determine_reference_panels panel script) := by
  constructor
  · simp only [determine_reference_panels]
    exact List.length_take_le 4 _
  · exact (List.sorted_insertionSort _ _).sublist (List.take_sublist _ _)

/-! ## Claim C10: `Character.get_reference_panels` -/

/-- A `Character` as `load_characters` can construct it from a registry file
whose record carries a `first_appearance_panel` but no `reference_panels`
key (`character_manager.py`, lines 152-157). -/
def ghostCharacter : Character :=
  { name := "Ghost".toList, visual_description := "Character named Ghost".toList,
    reference_panels := [], first_appearance_panel := some 5 }

/-- Counterexample to C10 as stated: for a character whose
`reference_panels` list is empty while `first_appearance_panel` is set,
`get_reference_panels` returns the empty list, which does not contain the
first appearance panel. -/
theorem get_reference_panels_claim_false :
    ghostCharacter.first_appearance_panel = some 5 ∧
    ¬ (5 : Int) ∈ ghostCharacter.get_reference_panels := by
  constructor
  · rfl
  · intro h
    simp [ghostCharacter, Character.get_reference_panels] at h

/-- C10 (amended): `get_reference_panels` at the default limit returns at
most 3 panels, sorted ascending, and — provided at least one appearance is
recorded — contains the first appearance panel whenever it is set. -/
theorem get_reference_panels_spec (c : Character) :
    (c.get_reference_panels).length ≤ 3 ∧
    List.Sorted (· ≤ ·) (c.get_reference_panels) ∧
    (¬ c.reference_panels = [] → ∀ f, c.first_appearance_panel = some f →
      f ∈ c.get_reference_panels) := by
  by_cases hr : c.reference_panels = []
  · refine ⟨?_, ?_, fun h => absurd hr h⟩
    · simp [Character.get_reference_panels, hr]
    · simp only [Character.get_reference_panels, hr, if_true]
      exact List.sorted_nil
  · simp only [Character.get_reference_panels, hr, if_false]
    refine ⟨?_, List.sorted_insertionSort _ _, ?_⟩
    · rw [List.length_insertionSort, List.length_append]
      have ht := List.length_take_le
        (3 - (match c.first_appearance_panel with
              | some f => ([f] : List Int)
              | none => []).length)
        (List.insertionSort (· ≥ ·)
          (c.reference_panels.filter (fun p => ¬ c.first_appearance_panel = some p)))
      cases c.first_appearance_panel
      · simp_all
      · simp_all
        omega
    · intro _ f hf
      rw [List.mem_insertionSort]
      simp [hf]

/-- A character with several recorded appearances, for the C10 witness. -/
def c10Character : Character :=
  { name := "Oga".toList, visual_description := [], reference_panels := [2, 7, 4, 9],
    first_appearance_panel := some 2 }

/-- Witness for the amended C10 at a character with several recorded
appearances: the first appearance (panel 2) is kept. -/
theorem get_reference_panels_spec_witness :
    ¬ c10Character.reference_panels = [] ∧
    (2 : Int) ∈ c10Character.get_reference_panels :=
  ⟨by decide, (get_reference_panels_spec c10Character).2.2 (by decide) 2 rfl⟩

/-! ## Claim C3: truncation policy of `determine_reference_panels` -/

/-- A character with a single recorded appearance, as used by the C3
counterexample script. -/
def c3Char (n : Str) (k : Int) : Character :=
  { name := n, visual_description := [], reference_panels := [k],
    first_appearance_panel := some k }

/-- Script with three characters first appearing in panels 1, 2 and 3. -/
def c3Script : Script :=
  { title := "T".toList, event_description := [], panels := [],
    characters := [c3Char "Ab".toList 1, c3Char "Cd".toList 2, c3Char "Ef".toList 3],
    style := [] }

/-- Panel 6, containing all three characters. -/
def c3Panel : Panel :=
  { panel_number := 6, scene_description := "s".toList, dialogue := [], style := [],
    characters_in_panel := ["Ab".toList, "Cd".toList, "Ef".toList] }

/-- Counterexample to C3 as stated: for panel 6 the candidate list is
`[5, 4, 1, 2, 3]` — the two rule-1 predecessors followed by three
character-appearance panels — but the returned list is the four smallest
values `[1, 2, 3, 4]`, dropping the rule-1 entry `panel_number - 1 = 5` in
favor of the character-appearance panels. -/
theorem determine_reference_panels_drops_rule1 :
    collectReferencePanels c3Panel c3Script = [5, 4, 1, 2, 3] ∧
    determine_reference_panels c3Panel c3Script = [1, 2, 3, 4] ∧
    ¬ (c3Panel.panel_number - 1) ∈ determine_reference_panels c3Panel c3Script := by
  refine ⟨by decide, by decide, by decide⟩

/-- C3 (amended): when the candidate set exceeds the cap, the four smallest
candidates are kept — every returned entry is ≤ every dropped candidate, so
rule-1's immediate predecessors (the largest candidates) are the first to be
dropped when smaller rule-2 panels fill the list. -/
theorem determine_reference_panels_keeps_smallest (panel : Panel) (script : Script)
    (x y : Int) (hx : x ∈ determine_reference_panels panel script)
    (hy : y ∈ collectReferencePanels panel script)
    (hyn : ¬ y ∈ determine_reference_panels panel script) : x ≤ y := by
  have hs := List.sorted_insertionSort (· ≤ ·) (collectReferencePanels panel script)
  have hmem : y ∈ List.insertionSort (· ≤ ·) (collectReferencePanels panel script) :=
    (List.mem_insertionSort _).2 hy
  rw [← List.take_append_drop 4
    (List.insertionSort (· ≤ ·) (collectReferencePanels panel script))] at hs hmem
  have hyd : y ∈ (List.insertionSort (· ≤ ·) (collectReferencePanels panel script)).drop 4 := by
    rcases List.mem_append.1 hmem with h1 | h2
    · exact absurd h1 hyn
    · exact h2
  exact (List.pairwise_append.1 hs).2.2 x hx y hyd

/-- Witness for the amended C3 at the counterexample instance: the kept
entry 1 is no larger than the dropped candidate 5. -/
theorem determine_reference_panels_keeps_smallest_witness : (1 : Int) ≤ 5 :=
  determine_reference_panels_keeps_smallest c3Panel c3Script 1 5
    (by decide) (by decide) (by decide)

/-! ## Claim C7: registry keys written by `save_characters` -/

/-- Cache state after registering a character named Oga (the cache key is the
lower-cased name, the character's stored name is title-cased). -/
def c7Cache : Cache :=
  [("oga".toList,
    { name := "Oga".toList, visual_description := "Character named Oga".toList,
      reference_panels := [1], first_appearance_panel := some 1 })]

/-- Counterexample to C7 as stated: the record of the character named
`"Oga"` is stored in the file under the top-level key `"Oga"` — the name
verbatim — which differs from the lower-cased name `"oga"`. -/
theorem save_characters_claim_false :
    (save_characters c7Cache).map Prod.fst = ["Oga".toList] ∧
    ¬ "Oga".toList = lowerStr "Oga".toList := by
  refine ⟨by decide, by decide⟩

theorem jsonSet_key_invariant (d : List (Str × Character)) (k : Str) (v : Character)
    (hkv : k = v.name) (h : ∀ e ∈ d, e.1 = e.2.name) :
    ∀ e ∈ save_characters.jsonSet d k v, e.1 = e.2.name := by
  intro e he
  simp only [save_characters.jsonSet] at he
  split at he
  · rcases List.mem_map.1 he with ⟨x, hx, hxe⟩
    by_cases hk : x.1 = k
    · rw [if_pos hk] at hxe
      rw [← hxe]
      exact hkv
    · rw [if_neg hk] at hxe
      rw [← hxe]
      exact h x hx
  · rcases List.mem_append.1 he with h1 | h2
    · exact h e h1
    · simp at h2
      rw [h2]
      exact hkv

theorem jsonSet_key_present (d : List (Str × Character)) (k : Str) (v : Character) :
    (save_characters.jsonSet d k v).any (fun r => r.1 = k) = true := by
  simp only [save_characters.jsonSet]
  split
  · rename_i hany
    rcases List.any_eq_true.1 hany with ⟨x, hx, hxk⟩
    refine List.any_eq_true.2 ⟨(k, v), List.mem_map.2 ⟨x, hx, ?_⟩, by simp⟩
    simp only [decide_eq_true_eq] at hxk
    rw [if_pos hxk]
  · simp

theorem jsonSet_key_mono (d : List (Str × Character)) (k k' : Str) (v : Character)
    (h : d.any (fun r => r.1 = k') = true) :
    (save_characters.jsonSet d k v).any (fun r => r.1 = k') = true := by
  simp only [save_characters.jsonSet]
  rcases List.any_eq_true.1 h with ⟨x, hx, hxk⟩
  simp only [decide_eq_true_eq] at hxk
  split
  · refine List.any_eq_true.2 ⟨if x.1 = k then (k, v) else x, List.mem_map.2 ⟨x, hx, rfl⟩, ?_⟩
    by_cases hk : x.1 = k
    · simp only [if_pos hk]
      simp [← hk, hxk]
    · simp only [if_neg hk]
      simp [hxk]
  · exact List.any_eq_true.2 ⟨x, List.mem_append_left _ hx, by simp [hxk]⟩

theorem save_foldl_key_invariant (l : List (Str × Character)) (acc : List (Str × Character))
    (h : ∀ e ∈ acc, e.1 = e.2.name) :
    ∀ e ∈ l.foldl (fun acc e => save_characters.jsonSet acc e.2.name e.2) acc,
      e.1 = e.2.name := by
  induction l generalizing acc with
  | nil => exact h
  | cons x xs ih =>
    exact ih _ (jsonSet_key_invariant acc x.2.name x.2 rfl h)

theorem save_foldl_key_mono (l : List (Str × Character)) (acc : List (Str × Character))
    (k : Str) (h : acc.any (fun r => r.1 = k) = true) :
    (l.foldl (fun acc e => save_characters.jsonSet acc e.2.name e.2) acc).any
      (fun r => r.1 = k) = true := by
  induction l generalizing acc with
  | nil => exact h
  | cons x xs ih =>
    exact ih _ (jsonSet_key_mono acc x.2.name k x.2 h)

theorem save_foldl_presence (l : List (Str × Character)) (acc : List (Str × Character)) :
    ∀ e ∈ l, (l.foldl (fun acc e => save_characters.jsonSet acc e.2.name e.2) acc).any
      (fun r => r.1 = e.2.name) = true := by
  induction l generalizing acc with
  | nil => intro e he; simp at he
  | cons x xs ih =>
    intro e he
    rcases List.mem_cons.1 he with rfl | he2
    · exact save_foldl_key_mono xs _ e.2.name
        (jsonSet_key_present acc e.2.name e.2)
    · exact ih _ e he2

/-- C7 (amended): `save_characters` stores every record under the
character's name verbatim (for the registered characters that is the
title-cased name, not the lower-cased cache key): every key of the written
file equals the `name` field of the record it maps to, and every cached
character has a record under its verbatim name. -/
theorem save_characters_keys (cache : Cache) :
    (∀ e ∈ save_characters cache, e.1 = e.2.name) ∧
    (∀ e ∈ cache, (save_characters cache).any (fun r => r.1 = e.2.name) = true) := by
  constructor
  · exact save_foldl_key_invariant cache [] (by intro e he; simp at he)
  · exact save_foldl_presence cache []

/-- The single entry of the registry file written from `c7Cache`. -/
def c7Entry : Str × Character :=
  ("Oga".toList,
   { name := "Oga".toList, visual_description := "Character named Oga".toList,
     reference_panels := [1], first_appearance_panel := some 1 })

/-- Witness for the amended C7 at the concrete cache: the single record is
keyed by the verbatim name. -/
theorem save_characters_keys_witness : c7Entry.1 = c7Entry.2.name :=
  (save_characters_keys c7Cache).1 c7Entry (by decide)

/-! ## Claim C6: title extraction -/

/-- The first non-empty line of a text, the fallback the claim describes
(stated from the claim's words, for comparison with `extract_title`). -/
def firstNonEmptyLine (text : Str) : Str :=
  match (text.splitOn '\n').find? (fun l => ¬ strip l = []) with
  | some l => strip l
  | none => []

/-- Counterexample to C6 as stated: the text consisting of an empty first
line followed by the line `My Title` has no `TITLE:` marker, its first
non-empty line is `My Title` (which does not look like a panel header), yet
`_extract_title` falls back to the placeholder because it only consults
`split('\n')[0]` — the literal first line, here empty. -/
theorem extract_title_claim_false :
    findCISuffix "TITLE:".toList "\nMy Title".toList = none ∧
    firstNonEmptyLine "\nMy Title".toList = "My Title".toList ∧
    ¬ startsWith "PANEL".toList "My Title".toList = true ∧
    ¬ extract_title "\nMy Title".toList = "My Title".toList ∧
    extract_title "\nMy Title".toList = "Untitled Comic".toList := by
  refine ⟨by decide, by decide, by decide, by decide, by decide⟩

/-- C6 (amended): when a `TITLE:` marker occurs and a non-newline character
follows it, the title is the stripped run of non-newline characters after
the whitespace following the first marker; otherwise — no marker at all, or
a marker followed by nothing or only newlines, where the pattern's `(.+)`
cannot match — the title is the stripped literal first line
`split('\n')[0]` — not the first non-empty line — provided it is non-empty
and does not start with `PANEL`, and the placeholder `Untitled Comic`
otherwise. -/
theorem extract_title_spec (text : Str) :
    (∀ rest, findCISuffix "TITLE:".toList text = some rest →
      rest.any (fun c => ¬ c = '\n') = true →
      extract_title text
        = strip ((rest.dropWhile pyIsSpace).takeWhile (fun c => ¬ c = '\n'))) ∧
    (∀ rest, findCISuffix "TITLE:".toList text = some rest →
      ¬ rest.any (fun c => ¬ c = '\n') = true →
      extract_title text =
        (if ¬ strip ((text.splitOn '\n').headD []) = []
            ∧ ¬ startsWith "PANEL".toList (strip ((text.splitOn '\n').headD []))
         then strip ((text.splitOn '\n').headD [])
         else "Untitled Comic".toList)) ∧
    (findCISuffix "TITLE:".toList text = none →
      extract_title text =
        (if ¬ strip ((text.splitOn '\n').headD []) = []
            ∧ ¬ startsWith "PANEL".toList (strip ((text.splitOn '\n').headD []))
         then strip ((text.splitOn '\n').headD [])
         else "Untitled Comic".toList)) := by
  refine ⟨?_, ?_, ?_⟩
  · intro rest hfind hany
    simp only [extract_title, hfind, hany, if_true]
    by_cases h1 : rest.dropWhile pyIsSpace = []
    · rw [if_pos h1, h1]
      rfl
    · rw [if_neg h1]
  · intro rest hfind hany
    simp only [extract_title, hfind, extract_title.fallbackTitle]
    rw [if_neg hany]
  · intro hfind
    simp only [extract_title, hfind, extract_title.fallbackTitle]

/-- Witness for the amended C6: a marker-bearing text takes its title from
the text after the marker; a marker followed by nothing falls back to the
first line; the counterexample text falls back to the placeholder. -/
theorem extract_title_spec_witness :
    extract_title "TITLE:  Fire Saga \nmore".toList = "Fire Saga".toList ∧
    extract_title "Foo\nTITLE:".toList = "Foo".toList ∧
    extract_title "\nMy Title".toList = "Untitled Comic".toList := by
  refine ⟨?_, ?_, ?_⟩
  · have h := (extract_title_spec "TITLE:  Fire Saga \nmore".toList).1
      "  Fire Saga \nmore".toList (by decide) (by decide)
    rw [h]
    decide
  · have h := (extract_title_spec "Foo\nTITLE:".toList).2.1
      [] (by decide) (by decide)
    rw [h]
    decide
  · have h := (extract_title_spec "\nMy Title".toList).2.2 (by decide)
    rw [h]
    decide

/-! ## Claim C5: dialogue line filtering -/

/-- The per-line keep condition of the amended C5: the line does not start
with `[`, and either it contains a colon and does not start with the word
`dialogue`, or it does not start with a section keyword.  (The emptiness
conjunct mirrors the loop's `if line` test; the lines fed to the loop are
already non-empty.) -/
def claimKeepLine (l : Str) : Bool :=
  (!decide (l = [])) && (!startsWith "[".toList l) &&
  ((containsChar ':' l && !startsWithCI "dialogue".toList l) ||
   (!(startsWithCI "SCENE".toList l || startsWithCI "DIALOGUE".toList l
      || startsWithCI "NARRATION".toList l)))

theorem bool_eq_false_of_ne {b : Bool} (h : ¬ b = true) : b = false := by
  cases b <;> simp_all

theorem dialogueLoop_eq_filter (ls : List Str) :
    dialogueLoop ls = ls.filter claimKeepLine := by
  induction ls with
  | nil => rfl
  | cons l ls ih =>
    simp only [dialogueLoop, List.filter_cons]
    by_cases h1 : ¬ l = [] ∧ ¬ startsWith "[".toList l = true
    · rw [if_pos h1]
      have e0 : decide (l = []) = false := by simp [h1.1]
      have e1 : startsWith ['['] l = false := bool_eq_false_of_ne h1.2
      by_cases h2 : containsChar ':' l = true ∧ ¬ startsWithCI "dialogue".toList l = true
      · rw [if_pos h2, ih]
        have hc2 : startsWithCI ['d', 'i', 'a', 'l', 'o', 'g', 'u', 'e'] l = false :=
          bool_eq_false_of_ne h2.2
        have hk : claimKeepLine l = true := by
          simp [claimKeepLine, e0, e1, h2.1, hc2]
        rw [if_pos hk]
      · rw [if_neg h2]
        by_cases h3 : ¬ (startsWithCI "SCENE".toList l = true
            ∨ startsWithCI "DIALOGUE".toList l = true
            ∨ startsWithCI "NARRATION".toList l = true)
        · rw [if_pos h3, ih]
          push_neg at h3
          have ha : startsWithCI ['S', 'C', 'E', 'N', 'E'] l = false :=
            bool_eq_false_of_ne h3.1
          have hb : startsWithCI ['D', 'I', 'A', 'L', 'O', 'G', 'U', 'E'] l = false :=
            bool_eq_false_of_ne h3.2.1
          have hc : startsWithCI ['N', 'A', 'R', 'R', 'A', 'T', 'I', 'O', 'N'] l = false :=
            bool_eq_false_of_ne h3.2.2
          have hk : claimKeepLine l = true := by
            simp [claimKeepLine, e0, e1, ha, hb, hc]
          rw [if_pos hk]
        · rw [if_neg h3, ih]
          push_neg at h2 h3
          have hk : ¬ claimKeepLine l = true := by
            intro hcontra
            simp only [claimKeepLine, Bool.and_eq_true, Bool.not_eq_true',
              Bool.or_eq_true, Bool.or_eq_false_iff] at hcontra
            rcases hcontra with ⟨-, ⟨hca1, hca2⟩ | hcb⟩
            · have hd : startsWithCI ['d', 'i', 'a', 'l', 'o', 'g', 'u', 'e'] l = true :=
                h2 hca1
              simp [hd] at hca2
            · rcases h3 with h3a | h3b | h3c
              · have hd : startsWithCI ['S', 'C', 'E', 'N', 'E'] l = true := h3a
                simp [hd] at hcb
              · have hd : startsWithCI ['D', 'I', 'A', 'L', 'O', 'G', 'U', 'E'] l = true := h3b
                simp [hd] at hcb
              · have hd : startsWithCI ['N', 'A', 'R', 'R', 'A', 'T', 'I', 'O', 'N'] l = true := h3c
                simp [hd] at hcb
          rw [if_neg hk]
    · rw [if_neg h1, ih]
      push_neg at h1
      have hk : ¬ claimKeepLine l = true := by
        intro hcontra
        simp only [claimKeepLine, Bool.and_eq_true, Bool.not_eq_true',
          Bool.or_eq_true, decide_eq_false_iff_not] at hcontra
        rcases hcontra with ⟨⟨ha, hb⟩, -⟩
        have h2' : startsWith ['['] l = true := h1 ha
        simp [h2'] at hb
      rw [if_neg hk]

/-- State of the dialogue section before the line loop: group matched,
stripped, not empty and not a `none` literal. -/
theorem extract_dialogue_eq_loop (content txt : Str)
    (hg : Option.map strip (regexSectionGroup "DIALOGUE:".toList
      ["NARRATION:".toList, "PANEL".toList] content) = some txt)
    (hne : ¬ txt = []) (hn1 : ¬ lowerStr txt = "[none]".toList)
    (hn2 : ¬ lowerStr txt = "none".toList) :
    extract_dialogue content =
      (((txt.splitOn '\n').map strip).filter (fun l => ¬ l = [])).filter claimKeepLine := by
  simp only [extract_dialogue]
  rcases hopt : regexSectionGroup "DIALOGUE:".toList
      ["NARRATION:".toList, "PANEL".toList] content with _ | g
  · rw [hopt] at hg
    exact absurd hg (by simp)
  · rw [hopt] at hg
    simp only [Option.map_some'] at hg
    have hgt : strip g = txt := Option.some.inj hg
    simp only [hgt]
    rw [if_neg (by tauto)]
    exact dialogueLoop_eq_filter _

/-- Counterexample to C5 as stated: the dialogue section consists of the
single line `[Aside] Bob: hi`, which contains a colon and does not start
with `dialogue` — by the claim it should appear in the panel's dialogue —
but the code drops every line starting with `[`, so the result is empty. -/
theorem extract_dialogue_claim_false :
    Option.map strip (regexSectionGroup "DIALOGUE:".toList
      ["NARRATION:".toList, "PANEL".toList] "DIALOGUE: [Aside] Bob: hi".toList)
      = some "[Aside] Bob: hi".toList ∧
    containsChar ':' "[Aside] Bob: hi".toList = true ∧
    ¬ startsWithCI "dialogue".toList "[Aside] Bob: hi".toList = true ∧
    extract_dialogue "DIALOGUE: [Aside] Bob: hi".toList = [] := by
  refine ⟨by decide, by decide, by decide, by decide⟩

/-- Witness for the amended C5: bracketed lines are dropped, colon lines
kept, in order. -/
theorem extract_dialogue_eq_loop_witness :
    extract_dialogue "DIALOGUE: Bob: hi\n[whisper] no\nAmy: yo".toList
      = ["Bob: hi".toList, "Amy: yo".toList] := by
  have h := extract_dialogue_eq_loop "DIALOGUE: Bob: hi\n[whisper] no\nAmy: yo".toList
    "Bob: hi\n[whisper] no\nAmy: yo".toList (by decide) (by decide) (by decide) (by decide)
  rw [h]
  decide

/-! ## Claim C1: panel segmentation and renumbering -/

theorem filterMap_parse_all_some (style : Str) : ∀ l : List (Int × Str),
    (∀ m ∈ l, ¬ extract_scene m.2 = []) →
    l.filterMap (fun m => parse_panel_content m.1 m.2 style)
      = l.map (fun m =>
          { panel_number := m.1, scene_description := extract_scene m.2,
            dialogue := extract_dialogue m.2, narration := extract_narration m.2,
            style := style : Panel })
  | [], _ => rfl
  | m :: l, h => by
    have hs : ¬ extract_scene m.2 = [] := h m (by simp)
    have hm : parse_panel_content m.1 m.2 style
        = some { panel_number := m.1, scene_description := extract_scene m.2,
                 dialogue := extract_dialogue m.2, narration := extract_narration m.2,
                 style := style } := by
      simp only [parse_panel_content, if_neg hs]
    simp only [List.filterMap_cons, hm, List.map_cons]
    rw [filterMap_parse_all_some style l (fun x hx => h x (by simp [hx]))]

theorem renumberPanels_numbers (ps : List Panel) :
    (renumberPanels ps).map (fun p => p.panel_number)
      = (List.range ps.length).map (fun i : Nat => (i : Int) + 1) := by
  simp only [renumberPanels, List.map_map]
  have h1 : ((fun p => p.panel_number) ∘ fun e : Nat × Panel =>
      { e.2 with panel_number := (e.1 : Int) + 1 }) = (fun e => (e.1 : Int) + 1) := rfl
  rw [h1]
  rw [show (fun e : Nat × Panel => (e.1 : Int) + 1)
      = ((fun i : Nat => (i : Int) + 1) ∘ Prod.fst) from rfl]
  rw [← List.map_map, List.enum_map_fst]

theorem renumberPanels_scenes (ps : List Panel) :
    (renumberPanels ps).map (fun p => p.scene_description)
      = ps.map (fun p => p.scene_description) := by
  simp only [renumberPanels, List.map_map]
  have : ((fun p => p.scene_description) ∘ fun e : Nat × Panel =>
      { e.2 with panel_number := (e.1 : Int) + 1 })
      = ((fun p => p.scene_description) ∘ Prod.snd) := rfl
  rw [this, ← List.map_map, List.enum_map_snd]

/-- C1: when every matched `PANEL k:` block has a non-empty scene section,
`parse_script` keeps exactly one panel per block, in the blocks' order of
appearance (witnessed by the scene descriptions), and the panels'
`panel_number` fields are reassigned densely to 1..N regardless of the
declared numbers `k`. -/
theorem parse_script_renumbers (script_text event_description style : Str)
    (h : ∀ m ∈ findPanelMatches script_text, ¬ extract_scene m.2 = []) :
    ((parse_script script_text event_description style).panels.map
        (fun p => p.panel_number))
      = (List.range (findPanelMatches script_text).length).map (fun i : Nat => (i : Int) + 1) ∧
    ((parse_script script_text event_description style).panels.map
        (fun p => p.scene_description))
      = (findPanelMatches script_text).map (fun m => extract_scene m.2) := by
  have hfm : extract_panels script_text style
      = (findPanelMatches script_text).map (fun m =>
          { panel_number := m.1, scene_description := extract_scene m.2,
            dialogue := extract_dialogue m.2, narration := extract_narration m.2,
            style := style : Panel }) :=
    filterMap_parse_all_some style (findPanelMatches script_text) h
  constructor
  · show (renumberPanels (extract_panels script_text style)).map (fun p => p.panel_number) = _
    rw [renumberPanels_numbers, hfm, List.length_map]
  · show (renumberPanels (extract_panels script_text style)).map
      (fun p => p.scene_description) = _
    rw [renumberPanels_scenes, hfm, List.map_map]
    rfl

/-- Witness for C1: two blocks declared as `PANEL 7:` and `PANEL 3:` come
out as panels 1 and 2, in order of appearance. -/
theorem parse_script_renumbers_witness :
    ((parse_script "PANEL 7:\nSCENE: A cave.\nPANEL 3:\nSCENE: A hill.".toList
        "e".toList "s".toList).panels.map (fun p => p.panel_number)) = [1, 2] ∧
    ((parse_script "PANEL 7:\nSCENE: A cave.\nPANEL 3:\nSCENE: A hill.".toList
        "e".toList "s".toList).panels.map (fun p => p.scene_description))
      = ["A cave.".toList, "A hill.".toList] := by
  have h := parse_script_renumbers
    "PANEL 7:\nSCENE: A cave.\nPANEL 3:\nSCENE: A hill.".toList
    "e".toList "s".toList (by decide)
  constructor
  · rw [h.1]
    decide
  · rw [h.2]
    decide

/-! ## Claim C2: idempotence of character extraction.

The correctness argument runs over two invariants of the manager's cache —
keys are the lower-cased names of their values, and keys are distinct (a
Python dict cannot hold a key twice, and both the empty cache and a cache
rebuilt by `load_characters` key every entry by `name.lower()`). -/

/-- Distinct cache keys (a dict invariant). -/
def NodupKeys (cache : Cache) : Prop := (cache.map Prod.fst).Nodup

/-- Every cache entry is keyed by the lower-cased name of its character. -/
def WellKeyed (cache : Cache) : Prop := ∀ e ∈ cache, e.1 = lowerStr e.2.name

theorem cacheGet_eq_none {cache : Cache} {k : Str} (h : cacheGet cache k = none) :
    ∀ e ∈ cache, ¬ e.1 = k := by
  induction cache with
  | nil => intro e he; simp at he
  | cons e0 cs ih =>
    intro e he
    rw [cacheGet] at h
    by_cases h0 : e0.1 = k
    · simp [h0] at h
    · rcases List.mem_cons.1 he with rfl | he2
      · exact h0
      · simp only [h0, if_false] at h
        exact ih h e he2

theorem cacheGet_some_mem {cache : Cache} {k : Str} {v : Character}
    (h : cacheGet cache k = some v) : (k, v) ∈ cache := by
  induction cache with
  | nil => simp [cacheGet] at h
  | cons e0 cs ih =>
    rw [cacheGet] at h
    by_cases h0 : e0.1 = k
    · simp only [h0, if_true, Option.some.injEq] at h
      rcases e0 with ⟨a, b⟩
      simp only at h0 h
      rw [List.mem_cons]
      exact Or.inl (by rw [h0, h])
    · simp only [h0, if_false] at h
      exact List.mem_cons_of_mem e0 (ih h)

theorem cacheGet_unique {cache : Cache} {k : Str} {v : Character}
    (hnd : NodupKeys cache) (h : cacheGet cache k = some v) :
    ∀ e ∈ cache, e.1 = k → e = (k, v) := by
  induction cache with
  | nil => intro e he; simp at he
  | cons e0 cs ih =>
    intro e he hek
    rw [cacheGet] at h
    by_cases h0 : e0.1 = k
    · simp only [h0, if_true, Option.some.injEq] at h
      rcases List.mem_cons.1 he with rfl | he2
      · rcases e with ⟨a, b⟩
        simp only at h0 h
        rw [h0, h]
      · exfalso
        have hk0 : k ∈ cs.map Prod.fst := List.mem_map.2 ⟨e, he2, hek⟩
        have hnd1 := (List.nodup_cons.1 hnd).1
        rw [h0] at hnd1
        exact hnd1 hk0
    · simp only [h0, if_false] at h
      rcases List.mem_cons.1 he with rfl | he2
      · exact absurd hek h0
      · exact ih (List.nodup_cons.1 hnd).2 h e he2 hek

theorem cacheSet_keys (cache : Cache) (k : Str) (v : Character) :
    (cacheSet cache k v).map Prod.fst = cache.map Prod.fst := by
  induction cache with
  | nil => rfl
  | cons e0 cs ih =>
    rw [cacheSet]
    by_cases h0 : e0.1 = k
    · simp [h0, ih]
    · simp [h0, ih]

theorem cacheSet_id {cache : Cache} {k : Str} {v : Character}
    (h : ∀ e ∈ cache, e.1 = k → e = (k, v)) : cacheSet cache k v = cache := by
  induction cache with
  | nil => rfl
  | cons e0 cs ih =>
    rw [cacheSet]
    by_cases h0 : e0.1 = k
    · rw [if_pos h0, ← h e0 (by simp) h0, ih (fun e he hek => h e (by simp [he]) hek)]
    · rw [if_neg h0, ih (fun e he hek => h e (by simp [he]) hek)]

theorem cacheGet_set_self {cache : Cache} {k : Str} {v0 v : Character}
    (h : cacheGet cache k = some v0) : cacheGet (cacheSet cache k v) k = some v := by
  induction cache with
  | nil => simp [cacheGet] at h
  | cons e0 cs ih =>
    rw [cacheGet] at h
    rw [cacheSet]
    by_cases h0 : e0.1 = k
    · rw [if_pos h0, cacheGet, if_pos rfl]
    · rw [if_neg h0] at h ⊢
      rw [cacheGet, if_neg h0]
      exact ih h

theorem cacheGet_set_ne (cache : Cache) (k k' : Str) (v : Character) (hne : ¬ k = k') :
    cacheGet (cacheSet cache k v) k' = cacheGet cache k' := by
  induction cache with
  | nil => rfl
  | cons e0 cs ih =>
    rw [cacheSet, cacheGet]
    by_cases h0 : e0.1 = k
    · rw [if_pos h0]
      simp only [hne, if_false]
      rw [cacheGet, h0]
      simp only [hne, if_false]
      exact ih
    · rw [if_neg h0, cacheGet]
      by_cases h1 : e0.1 = k'
      · rw [if_pos h1, if_pos h1]
      · rw [if_neg h1, if_neg h1]
        exact ih

theorem cacheGet_append_of_some {cache : Cache} {k' : Str} {v : Character}
    (e : Str × Character) (h : cacheGet cache k' = some v) :
    cacheGet (cache ++ [e]) k' = some v := by
  induction cache with
  | nil => simp [cacheGet] at h
  | cons e0 cs ih =>
    rw [cacheGet] at h
    rw [List.cons_append, cacheGet]
    by_cases h0 : e0.1 = k'
    · rwa [if_pos h0] at h ⊢
    · rw [if_neg h0] at h ⊢
      exact ih h

theorem cacheGet_append_self {cache : Cache} {k : Str} (v : Character)
    (h : cacheGet cache k = none) : cacheGet (cache ++ [(k, v)]) k = some v := by
  induction cache with
  | nil => simp [cacheGet]
  | cons e0 cs ih =>
    rw [cacheGet] at h
    rw [List.cons_append, cacheGet]
    by_cases h0 : e0.1 = k
    · rw [if_pos h0] at h
      exact absurd h (by simp)
    · rw [if_neg h0] at h ⊢
      exact ih h

theorem cacheGet_append_ne {cache : Cache} {k k' : Str} (v : Character) (hne : ¬ k = k') :
    cacheGet (cache ++ [(k, v)]) k' = cacheGet cache k' := by
  induction cache with
  | nil => simp [cacheGet, hne]
  | cons e0 cs ih =>
    rw [List.cons_append, cacheGet, cacheGet]
    by_cases h0 : e0.1 = k'
    · rw [if_pos h0, if_pos h0]
    · rw [if_neg h0, if_neg h0]
      exact ih

theorem scriptAdd_exists_self (sc : List Character) (c : Character) :
    ∃ x ∈ scriptAddCharacter sc c, x.name = c.name := by
  simp only [scriptAddCharacter]
  split
  · rename_i hany
    rcases List.any_eq_true.1 hany with ⟨x, hx, hxn⟩
    simp only [decide_eq_true_eq] at hxn
    refine ⟨c, List.mem_map.2 ⟨x, hx, ?_⟩, rfl⟩
    rw [if_pos hxn]
  · exact ⟨c, List.mem_append_right _ (by simp), rfl⟩

theorem scriptAdd_all_self (sc : List Character) (c : Character) :
    ∀ x ∈ scriptAddCharacter sc c, x.name = c.name → x = c := by
  simp only [scriptAddCharacter]
  split
  · intro x hx hxn
    rcases List.mem_map.1 hx with ⟨y, hy, hxy⟩
    by_cases hyn : y.name = c.name
    · rw [if_pos hyn] at hxy
      exact hxy.symm
    · rw [if_neg hyn] at hxy
      rw [← hxy] at hxn
      exact absurd hxn hyn
  · rename_i hany
    intro x hx hxn
    rcases List.mem_append.1 hx with h1 | h2
    · exfalso
      rw [List.any_eq_true] at hany
      push_neg at hany
      have := hany x h1
      simp [hxn] at this
    · simpa using h2

theorem scriptAdd_exists_ne {sc : List Character} {c : Character} {m : Str}
    (hne : ¬ m = c.name) (h : ∃ x ∈ sc, x.name = m) :
    ∃ x ∈ scriptAddCharacter sc c, x.name = m := by
  rcases h with ⟨x, hx, hxn⟩
  simp only [scriptAddCharacter]
  split
  · by_cases hxc : x.name = c.name
    · exact absurd (hxn.symm.trans hxc) hne
    · refine ⟨x, List.mem_map.2 ⟨x, hx, ?_⟩, hxn⟩
      rw [if_neg hxc]
  · exact ⟨x, List.mem_append_left _ hx, hxn⟩

theorem scriptAdd_all_ne {sc : List Character} {c : Character} {m : Str} {v : Character}
    (hne : ¬ m = c.name) (h : ∀ x ∈ sc, x.name = m → x = v) :
    ∀ x ∈ scriptAddCharacter sc c, x.name = m → x = v := by
  simp only [scriptAddCharacter]
  split
  · intro x hx hxn
    rcases List.mem_map.1 hx with ⟨y, hy, hxy⟩
    by_cases hyc : y.name = c.name
    · rw [if_pos hyc] at hxy
      rw [← hxy] at hxn
      exact absurd hxn.symm hne
    · rw [if_neg hyc] at hxy
      rw [← hxy]
      exact h y hy (by rw [hxy]; exact hxn)
  · intro x hx hxn
    rcases List.mem_append.1 hx with h1 | h2
    · exact h x h1 hxn
    · simp only [List.mem_singleton] at h2
      rw [h2] at hxn
      exact absurd hxn.symm hne

theorem scriptAdd_id {sc : List Character} {c : Character}
    (hex : ∃ x ∈ sc, x.name = c.name) (hall : ∀ x ∈ sc, x.name = c.name → x = c) :
    scriptAddCharacter sc c = sc := by
  simp only [scriptAddCharacter]
  rcases hex with ⟨x, hx, hxn⟩
  rw [if_pos (List.any_eq_true.2 ⟨x, hx, by simp [hxn]⟩)]
  conv_rhs => rw [← List.map_id sc]
  apply List.map_congr_left
  intro y hy
  by_cases hyc : y.name = c.name
  · rw [if_pos hyc, hall y hy hyc]
    rfl
  · rw [if_neg hyc]
    rfl

theorem add_appearance_self_mem (c : Character) (p : Int) :
    p ∈ (c.add_appearance p).reference_panels := by
  simp only [Character.add_appearance]
  split <;> split <;> simp_all

theorem add_appearance_first_ne_none (c : Character) (p : Int) :
    ¬ (c.add_appearance p).first_appearance_panel = none := by
  simp only [Character.add_appearance]
  split <;> split <;> simp_all

theorem add_appearance_id {c : Character} {p : Int}
    (h1 : ¬ c.first_appearance_panel = none) (h2 : p ∈ c.reference_panels) :
    c.add_appearance p = c := by
  simp only [Character.add_appearance, if_neg h1, if_pos h2]

theorem add_appearance_mem_mono {c : Character} {p q : Int}
    (h : q ∈ c.reference_panels) : q ∈ (c.add_appearance p).reference_panels := by
  rcases add_appearance_refs_extend c p with ⟨t, ht⟩
  rw [ht]
  exact List.mem_append_left _ h

theorem add_appearance_name (c : Character) (p : Int) :
    (c.add_appearance p).name = c.name := by
  simp only [Character.add_appearance]
  split <;> split <;> rfl

/-- The record established for a panel/name pair once it has been processed:
the cache holds a character under the lower-cased name, with a first
appearance set and the panel recorded, and the script's character list holds
exactly that character value under its name. -/
def NameDone (cache : Cache) (sc : List Character) (pn : Int) (n : Str) : Prop :=
  ∃ ch, cacheGet cache (lowerStr n) = some ch ∧
    ¬ ch.first_appearance_panel = none ∧
    pn ∈ ch.reference_panels ∧
    (∃ x ∈ sc, x.name = ch.name) ∧
    (∀ x ∈ sc, x.name = ch.name → x = ch)

/-- A fully processed panel: every speaker name is recorded on the panel and
`NameDone` for the panel's number. -/
def PanelDone (cache : Cache) (sc : List Character) (p : Panel) : Prop :=
  ∀ n ∈ panelNames p, n ∈ p.characters_in_panel ∧ NameDone cache sc p.panel_number n

theorem mem_panelAddCharacter_self (pc : List Str) (n : Str) :
    n ∈ panelAddCharacter pc n := by
  simp only [panelAddCharacter]
  split
  · assumption
  · simp

theorem mem_panelAddCharacter_mono {pc : List Str} {m : Str} (n : Str) (h : m ∈ pc) :
    m ∈ panelAddCharacter pc n := by
  simp only [panelAddCharacter]
  split
  · exact h
  · exact List.mem_append_left _ h

theorem panelAddCharacter_id {pc : List Str} {n : Str} (h : n ∈ pc) :
    panelAddCharacter pc n = pc := by
  simp [panelAddCharacter, h]

theorem mem_cacheSet {cache : Cache} {k : Str} {v : Character} {e : Str × Character}
    (h : e ∈ cacheSet cache k v) : e = (k, v) ∨ e ∈ cache := by
  induction cache with
  | nil => simp [cacheSet] at h
  | cons e0 cs ih =>
    rw [cacheSet] at h
    rcases List.mem_cons.1 h with h1 | h2
    · by_cases h0 : e0.1 = k
      · rw [if_pos h0] at h1
        exact Or.inl h1
      · rw [if_neg h0] at h1
        exact Or.inr (h1 ▸ List.mem_cons_self e0 cs)
    · rcases ih h2 with h3 | h3
      · exact Or.inl h3
      · exact Or.inr (List.mem_cons_of_mem e0 h3)

theorem nameStep_eq_hit {pc : List Str} {cache : Cache} {sc : List Character}
    {pn : Int} {scene n : Str} {ch : Character}
    (h : cacheGet cache (lowerStr n) = some ch) :
    nameStep pn scene (pc, cache, sc) n =
      (panelAddCharacter pc n,
       cacheSet cache (lowerStr n) (ch.add_appearance pn),
       scriptAddCharacter sc (ch.add_appearance pn)) := by
  simp [nameStep, getOrCreateCharacter, h]

theorem nameStep_eq_miss {pc : List Str} {cache : Cache} {sc : List Character}
    {pn : Int} {scene n : Str}
    (h : cacheGet cache (lowerStr n) = none) :
    nameStep pn scene (pc, cache, sc) n =
      (panelAddCharacter pc n,
       cacheSet (cache ++ [(lowerStr n,
           { name := n, visual_description := generate_character_description n scene })])
         (lowerStr n)
         (Character.add_appearance
           { name := n, visual_description := generate_character_description n scene } pn),
       scriptAddCharacter sc
         (Character.add_appearance
           { name := n, visual_description := generate_character_description n scene } pn)) := by
  simp [nameStep, getOrCreateCharacter, h]

theorem cacheSet_wellKeyed {cache : Cache} {k : Str} {v : Character}
    (hwk : WellKeyed cache) (hk : k = lowerStr v.name) : WellKeyed (cacheSet cache k v) := by
  intro e he
  rcases mem_cacheSet he with rfl | hmem
  · exact hk
  · exact hwk e hmem

theorem cacheSet_nodupKeys {cache : Cache} {k : Str} {v : Character}
    (h : NodupKeys cache) : NodupKeys (cacheSet cache k v) := by
  unfold NodupKeys
  rw [cacheSet_keys]
  exact h

theorem append_goodCache {cache : Cache} {k : Str} (v : Character)
    (hwk : WellKeyed cache) (hnd : NodupKeys cache) (hget : cacheGet cache k = none)
    (hk : k = lowerStr v.name) :
    WellKeyed (cache ++ [(k, v)]) ∧ NodupKeys (cache ++ [(k, v)]) := by
  constructor
  · intro e he
    rcases List.mem_append.1 he with h1 | h2
    · exact hwk e h1
    · simp only [List.mem_singleton] at h2
      rw [h2]
      exact hk
  · unfold NodupKeys
    rw [List.map_append, List.nodup_append]
    refine ⟨hnd, by simp, ?_⟩
    intro a ha hb
    simp only [List.map_cons, List.map_nil, List.mem_singleton] at hb
    rcases List.mem_map.1 ha with ⟨e, he, hek⟩
    rw [hb] at hek
    exact cacheGet_eq_none hget e he hek

theorem nameStep_goodCache (pc : List Str) (cache : Cache) (sc : List Character)
    (pn : Int) (scene n : Str) (hwk : WellKeyed cache) (hnd : NodupKeys cache) :
    WellKeyed (nameStep pn scene (pc, cache, sc) n).2.1 ∧
    NodupKeys (nameStep pn scene (pc, cache, sc) n).2.1 := by
  rcases hget : cacheGet cache (lowerStr n) with _ | ch
  · rw [nameStep_eq_miss hget]
    have hgood := append_goodCache
      { name := n, visual_description := generate_character_description n scene }
      hwk hnd hget rfl
    constructor
    · exact cacheSet_wellKeyed hgood.1 (by rw [add_appearance_name])
    · exact cacheSet_nodupKeys hgood.2
  · rw [nameStep_eq_hit hget]
    have hkch : lowerStr n = lowerStr ch.name := hwk _ (cacheGet_some_mem hget)
    constructor
    · exact cacheSet_wellKeyed hwk (by rw [add_appearance_name]; exact hkch)
    · exact cacheSet_nodupKeys hnd

theorem nameStep_establishes (pc : List Str) (cache : Cache) (sc : List Character)
    (pn : Int) (scene n : Str) :
    n ∈ (nameStep pn scene (pc, cache, sc) n).1 ∧
    NameDone (nameStep pn scene (pc, cache, sc) n).2.1
      (nameStep pn scene (pc, cache, sc) n).2.2 pn n := by
  rcases hget : cacheGet cache (lowerStr n) with _ | ch
  · rw [nameStep_eq_miss hget]
    exact ⟨mem_panelAddCharacter_self pc n,
      Character.add_appearance
        { name := n, visual_description := generate_character_description n scene } pn,
      cacheGet_set_self (cacheGet_append_self _ hget),
      add_appearance_first_ne_none _ _, add_appearance_self_mem _ _,
      scriptAdd_exists_self _ _, scriptAdd_all_self _ _⟩
  · rw [nameStep_eq_hit hget]
    exact ⟨mem_panelAddCharacter_self pc n,
      ch.add_appearance pn, cacheGet_set_self hget,
      add_appearance_first_ne_none _ _, add_appearance_self_mem _ _,
      scriptAdd_exists_self _ _, scriptAdd_all_self _ _⟩

theorem nameStep_preserves {cache : Cache} {sc : List Character} {pn' : Int} {n' : Str}
    (pc : List Str) (pn : Int) (scene n : Str)
    (hwk : WellKeyed cache) (_hnd : NodupKeys cache)
    (hd : NameDone cache sc pn' n') :
    NameDone (nameStep pn scene (pc, cache, sc) n).2.1
      (nameStep pn scene (pc, cache, sc) n).2.2 pn' n' := by
  rcases hd with ⟨ch, hget', hfirst, hpn, hex, hall⟩
  by_cases hk : lowerStr n = lowerStr n'
  · have hget : cacheGet cache (lowerStr n) = some ch := by rw [hk]; exact hget'
    rw [nameStep_eq_hit hget]
    refine ⟨ch.add_appearance pn, ?_, add_appearance_first_ne_none _ _,
      add_appearance_mem_mono hpn, ?_, ?_⟩
    · rw [← hk]
      exact cacheGet_set_self hget
    · exact scriptAdd_exists_self sc (ch.add_appearance pn)
    · exact scriptAdd_all_self sc (ch.add_appearance pn)
  · have hchname : lowerStr n' = lowerStr ch.name := hwk _ (cacheGet_some_mem hget')
    rcases hget0 : cacheGet cache (lowerStr n) with _ | ch2
    · rw [nameStep_eq_miss hget0]
      have hne : ¬ ch.name = (Character.add_appearance
          { name := n, visual_description := generate_character_description n scene } pn).name := by
        rw [add_appearance_name]
        intro hcontra
        apply hk
        have hcontra' : ch.name = n := hcontra
        rw [hchname, hcontra']
      refine ⟨ch, ?_, hfirst, hpn, scriptAdd_exists_ne hne hex, scriptAdd_all_ne hne hall⟩
      rw [cacheGet_set_ne _ _ _ _ hk, cacheGet_append_ne _ hk]
      exact hget'
    · rw [nameStep_eq_hit hget0]
      have hk2 : lowerStr n = lowerStr ch2.name := hwk _ (cacheGet_some_mem hget0)
      have hne : ¬ ch.name = (ch2.add_appearance pn).name := by
        rw [add_appearance_name]
        intro hcontra
        apply hk
        rw [hchname, hcontra, ← hk2]
      refine ⟨ch, ?_, hfirst, hpn, scriptAdd_exists_ne hne hex, scriptAdd_all_ne hne hall⟩
      rw [cacheGet_set_ne _ _ _ _ hk]
      exact hget'

theorem nameStep_id (pc : List Str) (cache : Cache) (sc : List Character)
    (pn : Int) (scene n : Str) (hnd : NodupKeys cache)
    (hpc : n ∈ pc) (hd : NameDone cache sc pn n) :
    nameStep pn scene (pc, cache, sc) n = (pc, cache, sc) := by
  rcases hd with ⟨ch, hget, hfirst, hpn, hex, hall⟩
  rw [nameStep_eq_hit hget, add_appearance_id hfirst hpn, panelAddCharacter_id hpc,
    cacheSet_id (cacheGet_unique hnd hget), scriptAdd_id hex hall]

theorem nameStep_pc_mono {pc : List Str} {m : Str} (cache : Cache) (sc : List Character)
    (pn : Int) (scene n : Str) (h : m ∈ pc) :
    m ∈ (nameStep pn scene (pc, cache, sc) n).1 := by
  rcases hget : cacheGet cache (lowerStr n) with _ | ch
  · rw [nameStep_eq_miss hget]
    exact mem_panelAddCharacter_mono n h
  · rw [nameStep_eq_hit hget]
    exact mem_panelAddCharacter_mono n h

theorem namesFold_spec (pn : Int) (scene : Str) : ∀ (L : List Str) (pc : List Str)
    (cache : Cache) (sc : List Character), WellKeyed cache → NodupKeys cache →
    (WellKeyed (L.foldl (nameStep pn scene) (pc, cache, sc)).2.1 ∧
      NodupKeys (L.foldl (nameStep pn scene) (pc, cache, sc)).2.1) ∧
    (∀ pn' n', NameDone cache sc pn' n' →
      NameDone (L.foldl (nameStep pn scene) (pc, cache, sc)).2.1
        (L.foldl (nameStep pn scene) (pc, cache, sc)).2.2 pn' n') ∧
    (∀ m ∈ pc, m ∈ (L.foldl (nameStep pn scene) (pc, cache, sc)).1) ∧
    (∀ n ∈ L, n ∈ (L.foldl (nameStep pn scene) (pc, cache, sc)).1 ∧
      NameDone (L.foldl (nameStep pn scene) (pc, cache, sc)).2.1
        (L.foldl (nameStep pn scene) (pc, cache, sc)).2.2 pn n)
  | [], pc, cache, sc, hwk, hnd => by
    refine ⟨⟨hwk, hnd⟩, fun pn' n' hd => hd, fun m hm => hm, ?_⟩
    intro n hn
    simp at hn
  | n :: L, pc, cache, sc, hwk, hnd => by
    rw [List.foldl_cons]
    rcases hst1 : nameStep pn scene (pc, cache, sc) n with ⟨pc1, cache1, sc1⟩
    have hgood := nameStep_goodCache pc cache sc pn scene n hwk hnd
    rw [hst1] at hgood
    have hest := nameStep_establishes pc cache sc pn scene n
    rw [hst1] at hest
    have ihh := namesFold_spec pn scene L pc1 cache1 sc1 hgood.1 hgood.2
    refine ⟨ihh.1, ?_, ?_, ?_⟩
    · intro pn' n' hd
      have h1 := nameStep_preserves pc pn scene n hwk hnd hd
      rw [hst1] at h1
      exact ihh.2.1 pn' n' h1
    · intro m hm
      have h1 := nameStep_pc_mono cache sc pn scene n hm
      rw [hst1] at h1
      exact ihh.2.2.1 m h1
    · intro x hx
      rcases List.mem_cons.1 hx with rfl | hx2
      · exact ⟨ihh.2.2.1 x hest.1, ihh.2.1 pn x hest.2⟩
      · exact ihh.2.2.2 x hx2

theorem namesFold_id (pn : Int) (scene : Str) : ∀ (L : List Str) (pc : List Str)
    (cache : Cache) (sc : List Character), NodupKeys cache →
    (∀ n ∈ L, n ∈ pc ∧ NameDone cache sc pn n) →
    L.foldl (nameStep pn scene) (pc, cache, sc) = (pc, cache, sc)
  | [], _, _, _, _, _ => rfl
  | n :: L, pc, cache, sc, hnd, h => by
    rw [List.foldl_cons,
      nameStep_id pc cache sc pn scene n hnd (h n (by simp)).1 (h n (by simp)).2]
    exact namesFold_id pn scene L pc cache sc hnd (fun x hx => h x (by simp [hx]))

theorem panelNames_update (p : Panel) (pc : List Str) :
    panelNames { p with characters_in_panel := pc } = panelNames p := rfl

theorem panelStep_spec (cache : Cache) (sc : List Character) (p : Panel)
    (hwk : WellKeyed cache) (hnd : NodupKeys cache) :
    (WellKeyed (panelStep (cache, sc) p).2.1 ∧ NodupKeys (panelStep (cache, sc) p).2.1) ∧
    (∀ pn' n', NameDone cache sc pn' n' →
      NameDone (panelStep (cache, sc) p).2.1 (panelStep (cache, sc) p).2.2 pn' n') ∧
    PanelDone (panelStep (cache, sc) p).2.1 (panelStep (cache, sc) p).2.2
      (panelStep (cache, sc) p).1 := by
  have hf := namesFold_spec p.panel_number p.scene_description (panelNames p)
    p.characters_in_panel cache sc hwk hnd
  unfold panelStep
  refine ⟨hf.1, hf.2.1, ?_⟩
  intro m hm
  rw [panelNames_update] at hm
  exact hf.2.2.2 m hm

theorem panelStep_preserves (cache : Cache) (sc : List Character) (p q : Panel)
    (hwk : WellKeyed cache) (hnd : NodupKeys cache)
    (hq : PanelDone cache sc q) :
    PanelDone (panelStep (cache, sc) p).2.1 (panelStep (cache, sc) p).2.2 q := by
  have hf := namesFold_spec p.panel_number p.scene_description (panelNames p)
    p.characters_in_panel cache sc hwk hnd
  unfold panelStep
  intro m hm
  exact ⟨(hq m hm).1, hf.2.1 q.panel_number m (hq m hm).2⟩

theorem panelStep_id (cache : Cache) (sc : List Character) (p : Panel)
    (hnd : NodupKeys cache) (hdone : PanelDone cache sc p) :
    panelStep (cache, sc) p = (p, cache, sc) := by
  unfold panelStep
  rw [namesFold_id p.panel_number p.scene_description (panelNames p)
    p.characters_in_panel cache sc hnd hdone]

theorem extractLoop_spec : ∀ (ps : List Panel) (cache : Cache) (sc : List Character),
    WellKeyed cache → NodupKeys cache →
    (WellKeyed (extractLoop ps (cache, sc)).2.1 ∧
      NodupKeys (extractLoop ps (cache, sc)).2.1) ∧
    (∀ q, PanelDone cache sc q →
      PanelDone (extractLoop ps (cache, sc)).2.1 (extractLoop ps (cache, sc)).2.2 q) ∧
    (∀ p' ∈ (extractLoop ps (cache, sc)).1,
      PanelDone (extractLoop ps (cache, sc)).2.1 (extractLoop ps (cache, sc)).2.2 p')
  | [], cache, sc, hwk, hnd => by
    refine ⟨⟨hwk, hnd⟩, fun q hq => hq, ?_⟩
    intro p' hp'
    simp [extractLoop] at hp'
  | p :: ps, cache, sc, hwk, hnd => by
    rw [extractLoop]
    rcases hr1 : panelStep (cache, sc) p with ⟨p', cache1, sc1⟩
    have hps := panelStep_spec cache sc p hwk hnd
    have hpres := fun q hq => panelStep_preserves cache sc p q hwk hnd hq
    rw [hr1] at hps hpres
    have ihh := extractLoop_spec ps cache1 sc1 hps.1.1 hps.1.2
    rcases hr2 : extractLoop ps (cache1, sc1) with ⟨ps', cache2, sc2⟩
    rw [hr2] at ihh
    refine ⟨ihh.1, ?_, ?_⟩
    · intro q hq
      exact ihh.2.1 q (hpres q hq)
    · intro x hx
      rcases List.mem_cons.1 hx with rfl | hx2
      · exact ihh.2.1 x hps.2.2
      · exact ihh.2.2 x hx2

theorem extractLoop_id : ∀ (ps : List Panel) (cache : Cache) (sc : List Character),
    NodupKeys cache → (∀ p ∈ ps, PanelDone cache sc p) →
    extractLoop ps (cache, sc) = (ps, cache, sc)
  | [], _, _, _, _ => rfl
  | p :: ps, cache, sc, hnd, h => by
    rw [extractLoop, panelStep_id cache sc p hnd (h p (by simp)),
      extractLoop_id ps cache sc hnd (fun x hx => h x (by simp [hx]))]

/-- C2: running `extract_characters_from_script` a second time on an
already-processed script and manager state changes nothing — neither any
panel's `characters_in_panel`, nor any cached character's `reference_panels`
or `first_appearance_panel`, nor the script's character list.  The cache
hypotheses hold for every state the manager itself produces: the empty cache
and the cache rebuilt by `load_characters` key every character by its
lower-cased name, with distinct keys (a dict), and extraction preserves
this. -/
theorem extract_characters_idempotent (script : Script) (cache : Cache)
    (hwk : WellKeyed cache) (hnd : NodupKeys cache) :
    extract_characters_from_script (extract_characters_from_script script cache).1
      (extract_characters_from_script script cache).2
      = extract_characters_from_script script cache := by
  unfold extract_characters_from_script
  rcases hr : extractLoop script.panels (cache, script.characters) with ⟨ps', cache', sc'⟩
  have hspec := extractLoop_spec script.panels cache script.characters hwk hnd
  rw [hr] at hspec
  simp only
  rw [extractLoop_id ps' cache' sc' hspec.1.2 hspec.2.2]

/-- Script holding the spec's worked example panel, for the C2 witness. -/
def c2Script : Script :=
  { title := "The Spark".toList, event_description := "e".toList,
    panels := [
      { panel_number := 1, scene_description := "A cave at night.".toList,
        dialogue := ["Oga: Look, fire!".toList], narration := none, style := "s".toList },
      { panel_number := 2, scene_description := "Villagers gather.".toList,
        dialogue := [], narration := none, style := "s".toList }],
    style := "s".toList }

/-- Witness for C2 at the worked example, starting from an empty cache. -/
theorem extract_characters_idempotent_witness :
    extract_characters_from_script (extract_characters_from_script c2Script []).1
      (extract_characters_from_script c2Script []).2
      = extract_characters_from_script c2Script [] :=
  extract_characters_idempotent c2Script []
    (by intro e he; simp at he) (by simp [NodupKeys])
